import Mathlib

/-!
Verification of the `marselester/capacity` admission-control demo.

The embedding follows `cmd/proxy/main.go` (the `Quota` counter pair with
`Receive`/`Release`/`Inc`/`Backoff`, plus the HTTP handler wiring) and the
origin worker pool (the `select`-based non-blocking enqueue in the backend
HTTP handler).  Go `int64` counters are modelled as `Int` (the claims keep
all values far from the 64-bit boundary, so wrap-around never matters);
`float64` arithmetic in `Backoff` is modelled over `ℚ` with `Int.ceil`,
exact for the magnitudes the proxy handles.
-/

namespace Capacity

/-- HTTP 200 OK, the origin's success status. -/
def statusOK : Nat := 200

/-- HTTP 429 Too Many Requests, used by both proxy and origin for overload. -/
def statusTooManyRequests : Nat := 429

/-- HTTP 502 Bad Gateway, written by `proxy.ErrorHandler` on transport failure. -/
def statusBadGateway : Nat := 502

/-- `Quota` from `cmd/proxy/main.go`: the pair of `int64` counters
`used` (in-flight requests) and `max` (the admission ceiling).
The prometheus gauges carried by the Go struct are pure telemetry
mirroring these two fields and are omitted. -/
structure Quota where
  used : Int
  max : Int
deriving Repr, DecidableEq

/-- `NewQuota(n, ...)`: a fresh quota with ceiling `n` and zero in-flight. -/
def NewQuota (n : Int) : Quota := { used := 0, max := n }

/-- `Quota.Receive`: load `used` and `max`; if `used < max`, add one to
`used` and grant, else deny leaving the state untouched.  Returns the
state after the call and the grant decision. -/
def Receive (q : Quota) : Quota × Bool :=
  if q.used < q.max then ({ q with used := q.used + 1 }, true) else (q, false)

/-- `Quota.Release`: subtract one from `used`. -/
def Release (q : Quota) : Quota := { q with used := q.used - 1 }

/-- `Quota.Inc`: add one to the ceiling `max`. -/
def Inc (q : Quota) : Quota := { q with max := q.max + 1 }

/-- `Quota.Backoff(p)`: replace the ceiling with `ceil(p * max)`.
The Go code computes `math.Ceil(p * float64(oldMax))` and stores it back
via a compare-and-swap loop; sequentially the loop succeeds on the first
iteration, so the effect is this single update. -/
def Backoff (p : ℚ) (q : Quota) : Quota := { q with max := Int.ceil (p * (q.max : ℚ)) }

/-- The map a single `Backoff p` applies to the ceiling value. -/
def backoffStep (p : ℚ) (m : Int) : Int := Int.ceil (p * (m : ℚ))

/-- C1: `Receive` grants and increments `used` by exactly one when
`used < max`, and otherwise denies leaving both `used` and `max`
unchanged; `max` is never written by `Receive`. -/
theorem receive_characterization (q : Quota) :
    (q.used < q.max →
      Receive q = ({ used := q.used + 1, max := q.max }, true)) ∧
    (¬ q.used < q.max → Receive q = (q, false)) := by
  constructor
  · intro h
    simp [Receive, h]
  · intro h
    simp [Receive, h]

/-- Witness for `receive_characterization` at `used = 0, max = 5`
(grant) and `used = 5, max = 5` (deny). -/
theorem receive_characterization_witness :
    Receive { used := 0, max := 5 } = ({ used := 1, max := 5 }, true) ∧
    Receive { used := 5, max := 5 } = ({ used := 5, max := 5 }, false) := by
  refine ⟨(receive_characterization { used := 0, max := 5 }).1 (by decide),
          (receive_characterization { used := 5, max := 5 }).2 (by decide)⟩

/-- C2: for `0 ≤ p ≤ 1`, one `Backoff p` replaces the ceiling with
`ceil(p * max)`, and `k` sequential applications of `Backoff p` produce
exactly the `k`-fold iterate of the map `m ↦ ceil(p * m)` on the
ceiling, none of the `k` updates being lost. -/
theorem backoff_iterate_spec (p : ℚ) (_hp0 : 0 ≤ p) (_hp1 : p ≤ 1) (q : Quota) (k : ℕ) :
    (Backoff p q).max = backoffStep p q.max ∧
    ((Backoff p)^[k] q).max = (backoffStep p)^[k] q.max := by
  refine ⟨rfl, ?_⟩
  induction k generalizing q with
  | zero => rfl
  | succ k ih =>
    rw [Function.iterate_succ_apply, Function.iterate_succ_apply]
    exact ih (Backoff p q)

/-- Witness for `backoff_iterate_spec` at `p = 3/4`, ceiling `10`,
`k = 2`: `ceil(3/4 * 10) = 8`, `ceil(3/4 * 8) = 6`. -/
theorem backoff_iterate_spec_witness :
    (Backoff (3/4) { used := 0, max := 10 }).max = backoffStep (3/4) 10 ∧
    ((Backoff (3/4))^[2] { used := 0, max := 10 }).max = (backoffStep (3/4))^[2] 10 := by
  exact backoff_iterate_spec (3/4) (by norm_num) (by norm_num) { used := 0, max := 10 } 2

/-- An adjustment the AIMD controller makes to the ceiling: either the
additive increase `Inc` or a multiplicative `Backoff p`. -/
inductive CtrlOp where
  | inc : CtrlOp
  | backoff : ℚ → CtrlOp
deriving Repr, DecidableEq

/-- Apply one controller adjustment to the quota. -/
def applyCtrl (op : CtrlOp) (q : Quota) : Quota :=
  match op with
  | .inc => Inc q
  | .backoff p => Backoff p q

/-- Run a sequence of controller adjustments left to right. -/
def runCtrl (ops : List CtrlOp) (q : Quota) : Quota :=
  ops.foldl (fun s op => applyCtrl op s) q

/-- Every `Backoff` in the sequence uses a fraction `0 ≤ p ≤ 1`. -/
def fracsValid (ops : List CtrlOp) : Prop :=
  ∀ op ∈ ops, ∀ p, op = CtrlOp.backoff p → 0 ≤ p ∧ p ≤ 1

/-- Every `Backoff` in the sequence uses a fraction `0 < p ≤ 1`. -/
def fracsPos (ops : List CtrlOp) : Prop :=
  ∀ op ∈ ops, ∀ p, op = CtrlOp.backoff p → 0 < p ∧ p ≤ 1

/-- One valid controller step keeps the ceiling non-negative. -/
theorem applyCtrl_max_nonneg (op : CtrlOp) (q : Quota)
    (hq : 0 ≤ q.max) (hop : ∀ p, op = CtrlOp.backoff p → 0 ≤ p ∧ p ≤ 1) :
    0 ≤ (applyCtrl op q).max := by
  cases op with
  | inc => simpa [applyCtrl, Inc] using le_trans hq (by omega)
  | backoff p =>
    have hp := (hop p rfl).1
    have : (0 : ℚ) ≤ p * (q.max : ℚ) := mul_nonneg hp (by exact_mod_cast hq)
    simpa [applyCtrl, Backoff] using Int.ceil_nonneg this

/-- C7: starting from any ceiling `n ≥ 0`, every prefix of a sequence of
`Inc` and `Backoff p` adjustments (each `p` with `0 ≤ p ≤ 1`) leaves the
ceiling non-negative: the ceiling is `≥ 0` at all times. -/
theorem ceiling_nonneg_invariant (n : Int) (hn : 0 ≤ n) (ops : List CtrlOp)
    (hops : fracsValid ops) :
    ∀ i, 0 ≤ (runCtrl (ops.take i) (NewQuota n)).max := by
  have key : ∀ (l : List CtrlOp) (q : Quota), 0 ≤ q.max → fracsValid l →
      0 ≤ (runCtrl l q).max := by
    intro l
    induction l with
    | nil => intro q hq _; simpa [runCtrl] using hq
    | cons op rest ih =>
      intro q hq hv
      have hstep : 0 ≤ (applyCtrl op q).max :=
        applyCtrl_max_nonneg op q hq (fun p hp => hv op (by simp) p hp)
      have hrest : fracsValid rest := fun o ho p hp => hv o (by simp [ho]) p hp
      simpa [runCtrl] using ih (applyCtrl op q) hstep hrest
  intro i
  refine key (ops.take i) (NewQuota n) (by simpa [NewQuota] using hn) ?_
  intro op hop p hp
  exact hops op (List.mem_of_mem_take hop) p hp

/-- Witness for `ceiling_nonneg_invariant` at `n = 5` with the sequence
`[Inc, Backoff 3/4, Backoff 0]`, checked at every prefix. -/
theorem ceiling_nonneg_invariant_witness :
    (0 : Int) ≤ 5 ∧
    0 ≤ (runCtrl ([CtrlOp.inc, CtrlOp.backoff (3/4), CtrlOp.backoff 0].take 3)
          (NewQuota 5)).max := by
  have hops : fracsValid [CtrlOp.inc, CtrlOp.backoff (3/4), CtrlOp.backoff 0] := by
    intro op hop p hp
    fin_cases hop <;> simp_all
    all_goals subst hp
    all_goals norm_num
  exact ⟨by decide,
    ceiling_nonneg_invariant 5 (by decide)
      [CtrlOp.inc, CtrlOp.backoff (3/4), CtrlOp.backoff 0] hops 3⟩

/-- A single `Backoff p` with `0 < p ≤ 1` keeps a positive ceiling positive. -/
theorem backoff_max_pos (p : ℚ) (q : Quota) (hp : 0 < p) (hm : 1 ≤ q.max) :
    1 ≤ (Backoff p q).max := by
  have hmq : (0 : ℚ) < (q.max : ℚ) := by exact_mod_cast lt_of_lt_of_le Int.zero_lt_one hm
  have : (0 : ℚ) < p * (q.max : ℚ) := mul_pos hp hmq
  simpa [Backoff] using Int.ceil_pos.mpr this

/-- C10: with `0 < p ≤ 1` and ceiling `m ≥ 1`, `Backoff p` yields a new
ceiling `ceil(p * m) ≥ 1`; consequently, once the ceiling is at least 1,
it stays at least 1 through every prefix of any sequence of `Inc` and
`Backoff` adjustments whose fractions satisfy `0 < p ≤ 1` — admission is
never fully closed. -/
theorem ceiling_pos_invariant (q : Quota) (hq : 1 ≤ q.max) (ops : List CtrlOp)
    (hops : fracsPos ops) :
    (∀ p, 0 < p → p ≤ 1 → 1 ≤ (Backoff p q).max) ∧
    (∀ i, 1 ≤ (runCtrl (ops.take i) q).max) := by
  constructor
  · intro p hp _
    exact backoff_max_pos p q hp hq
  · have key : ∀ (l : List CtrlOp) (s : Quota), 1 ≤ s.max → fracsPos l →
        1 ≤ (runCtrl l s).max := by
      intro l
      induction l with
      | nil => intro s hs _; simpa [runCtrl] using hs
      | cons op rest ih =>
        intro s hs hv
        have hstep : 1 ≤ (applyCtrl op s).max := by
          cases op with
          | inc => simp only [applyCtrl, Inc]; omega
          | backoff p => exact backoff_max_pos p s (hv _ (by simp) p rfl).1 hs
        have hrest : fracsPos rest := fun o ho p hp => hv o (by simp [ho]) p hp
        simpa [runCtrl] using ih (applyCtrl op s) hstep hrest
    intro i
    refine key (ops.take i) q hq ?_
    intro op hop p hp
    exact hops op (List.mem_of_mem_take hop) p hp

/-- Witness for `ceiling_pos_invariant` at ceiling `1` with the sequence
`[Backoff 3/4, Inc, Backoff 1/2]`: the ceiling never drops below 1. -/
theorem ceiling_pos_invariant_witness :
    (1 : Int) ≤ (1 : Int) ∧
    (1 ≤ (Backoff (3/4) (NewQuota 1)).max ∧
     1 ≤ (runCtrl ([CtrlOp.backoff (3/4), CtrlOp.inc, CtrlOp.backoff (1/2)].take 3)
            (NewQuota 1)).max) := by
  have hops : fracsPos [CtrlOp.backoff (3/4), CtrlOp.inc, CtrlOp.backoff (1/2)] := by
    intro op hop p hp
    fin_cases hop <;> simp_all
    all_goals subst hp
    all_goals norm_num
  have h := ceiling_pos_invariant (NewQuota 1) (by decide)
    [CtrlOp.backoff (3/4), CtrlOp.inc, CtrlOp.backoff (1/2)] hops
  exact ⟨le_refl 1, h.1 (3/4) (by norm_num) (by norm_num), h.2 3⟩

/-! ### The proxy HTTP handler

`http.HandleFunc("/", ...)` in `cmd/proxy/main.go`: `Receive`, and on a
grant forward through the reverse proxy (whose `ModifyResponse` and
`ErrorHandler` drive the AIMD controller) then `Release`; on a denial
answer 429 without contacting the backend. -/

/-- A call made on the shared `Quota` by the handler or the proxy hooks. -/
inductive QuotaOp where
  | receive : QuotaOp
  | release : QuotaOp
  | inc : QuotaOp
  | backoff : QuotaOp
deriving Repr, DecidableEq

/-- How one forwarded request terminates: a backend response with some
status code, or a transport failure routed to `proxy.ErrorHandler`. -/
inductive Outcome where
  | response : Nat → Outcome
  | transportError : Outcome
deriving Repr, DecidableEq

/-- Quota calls made by `proxy.ModifyResponse` for a backend response:
nothing unless adaptive; `Backoff(0.75)` on a non-200 status; `Inc` on a
200 when the rate limiter grants a token (`allow`). -/
def modifyResponseOps (adaptive allow : Bool) (status : Nat) : List QuotaOp :=
  if !adaptive then []
  else if status ≠ statusOK then [.backoff]
  else if allow then [.inc] else []

/-- Quota calls made by `proxy.ErrorHandler` on a transport failure:
`Backoff(0.75)` when adaptive, nothing otherwise. -/
def errorHandlerOps (adaptive : Bool) : List QuotaOp :=
  if adaptive then [.backoff] else []

/-- Quota calls made while `proxy.ServeHTTP` forwards one request,
by termination outcome. -/
def serveOps (adaptive allow : Bool) : Outcome → List QuotaOp
  | .response s => modifyResponseOps adaptive allow s
  | .transportError => errorHandlerOps adaptive

/-- What the handler writes back: the mirrored backend status on a
response, 502 from `ErrorHandler` on a transport failure. -/
def serveStatus : Outcome → Nat
  | .response s => s
  | .transportError => statusBadGateway

/-- Result of one pass through the proxy handler: the HTTP status
answered, the ordered quota calls made, and whether the request was
forwarded to the backend. -/
structure HandlerResult where
  status : Nat
  ops : List QuotaOp
  forwarded : Bool
deriving Repr, DecidableEq

/-- One pass through the proxy's `HandleFunc` closure for a request whose
forwarding (if any) terminates with `o`: if `Receive` grants, forward,
run the hook's quota calls, then `Release`; else answer 429 untouched. -/
def handle (adaptive allow : Bool) (q : Quota) (o : Outcome) : HandlerResult :=
  if (Receive q).2 then
    { status := serveStatus o
      ops := .receive :: (serveOps adaptive allow o ++ [.release])
      forwarded := true }
  else
    { status := statusTooManyRequests
      ops := [.receive]
      forwarded := false }

/-- Replay one quota call against a quota state (`Backoff` always uses
the proxy's fixed fraction `p`). -/
def applyOp (p : ℚ) (op : QuotaOp) (q : Quota) : Quota :=
  match op with
  | .receive => (Receive q).1
  | .release => Release q
  | .inc => Inc q
  | .backoff => Backoff p q

/-- Replay a sequence of quota calls left to right. -/
def runOps (p : ℚ) (ops : List QuotaOp) (q : Quota) : Quota :=
  ops.foldl (fun s op => applyOp p op s) q

/-- `serveOps` never releases: the only `Release` is the handler's own. -/
theorem serveOps_no_release (adaptive allow : Bool) (o : Outcome) :
    QuotaOp.release ∉ serveOps adaptive allow o := by
  cases o with
  | response s =>
    simp only [serveOps, modifyResponseOps]
    split_ifs <;> simp
  | transportError =>
    simp only [serveOps, errorHandlerOps]
    split_ifs <;> simp

/-- C4: whenever `Receive` grants, the handler performs `Release` exactly
once, as the final quota call after forwarding terminates — both when the
backend answers (any status) and when forwarding fails with a transport
error. -/
theorem release_once_per_grant (adaptive allow : Bool) (q : Quota) (o : Outcome)
    (h : (Receive q).2 = true) :
    (handle adaptive allow q o).ops.count QuotaOp.release = 1 ∧
    (handle adaptive allow q o).ops.getLast? = some QuotaOp.release := by
  have hops : (handle adaptive allow q o).ops
      = QuotaOp.receive :: (serveOps adaptive allow o ++ [QuotaOp.release]) := by
    simp [handle, h]
  rw [hops]
  constructor
  · rw [List.count_cons, List.count_append,
      List.count_eq_zero.mpr (serveOps_no_release adaptive allow o)]
    decide
  · rw [← List.cons_append, List.getLast?_append_cons]
    rfl

/-- Witness for `release_once_per_grant` at `used = 0, max = 5` with a
transport-error outcome in adaptive mode. -/
theorem release_once_per_grant_witness :
    (Receive { used := 0, max := 5 }).2 = true ∧
    ((handle true true { used := 0, max := 5 } Outcome.transportError).ops.count
        QuotaOp.release = 1 ∧
      (handle true true { used := 0, max := 5 } Outcome.transportError).ops.getLast? =
        some QuotaOp.release) := by
  exact ⟨by decide,
    release_once_per_grant true true { used := 0, max := 5 } Outcome.transportError
      (by decide)⟩

/-- C5: when `Receive` denies, the handler answers 429 immediately, does
not forward to the backend, makes no `Release`, `Inc` or `Backoff` call
(its only quota touch is the denied `Receive` itself), and replaying its
calls leaves `used` and `max` unchanged. -/
theorem denied_rejects_immediately (adaptive allow : Bool) (p : ℚ) (q : Quota)
    (o : Outcome) (h : (Receive q).2 = false) :
    (handle adaptive allow q o).status = statusTooManyRequests ∧
    (handle adaptive allow q o).forwarded = false ∧
    (handle adaptive allow q o).ops = [QuotaOp.receive] ∧
    runOps p (handle adaptive allow q o).ops q = q := by
  have hq : ¬ q.used < q.max := by
    intro hlt
    simp [Receive, hlt] at h
  refine ⟨by simp [handle, h], by simp [handle, h], by simp [handle, h], ?_⟩
  simp [handle, h, runOps, applyOp, Receive, hq]

/-- Witness for `denied_rejects_immediately` at `used = 5, max = 5`. -/
theorem denied_rejects_immediately_witness :
    (Receive { used := 5, max := 5 }).2 = false ∧
    ((handle true true { used := 5, max := 5 } (Outcome.response 200)).status =
        statusTooManyRequests ∧
      (handle true true { used := 5, max := 5 } (Outcome.response 200)).forwarded = false ∧
      (handle true true { used := 5, max := 5 } (Outcome.response 200)).ops =
        [QuotaOp.receive] ∧
      runOps (3/4) (handle true true { used := 5, max := 5 } (Outcome.response 200)).ops
          { used := 5, max := 5 } = { used := 5, max := 5 }) := by
  exact ⟨by decide,
    denied_rejects_immediately true true (3/4) { used := 5, max := 5 }
      (Outcome.response 200) (by decide)⟩

/-! ### Acquire/release accounting (sequential traces of quota calls) -/

/-- Number of granted `Receive` calls when replaying `ops` from `q`. -/
def grantCount (p : ℚ) : List QuotaOp → Quota → ℕ
  | [], _ => 0
  | op :: rest, q =>
    (match op with
     | .receive => if q.used < q.max then 1 else 0
     | _ => 0) + grantCount p rest (applyOp p op q)

/-- Number of `Release` calls in a trace. -/
def releaseCount (ops : List QuotaOp) : ℕ := ops.count QuotaOp.release

theorem releaseCount_cons (op : QuotaOp) (rest : List QuotaOp) :
    releaseCount (op :: rest)
      = releaseCount rest + (if op = QuotaOp.release then 1 else 0) := by
  simp [releaseCount, List.count_cons]

/-- Accounting: after replaying a trace, `used` has moved by exactly the
number of grants minus the number of releases. -/
theorem runOps_used (p : ℚ) (ops : List QuotaOp) (q : Quota) :
    (runOps p ops q).used
      = q.used + (grantCount p ops q : ℤ) - (releaseCount ops : ℤ) := by
  induction ops generalizing q with
  | nil => simp [runOps, grantCount, releaseCount]
  | cons op rest ih =>
    have hrun : runOps p (op :: rest) q = runOps p rest (applyOp p op q) := rfl
    rw [hrun, ih, releaseCount_cons]
    cases op with
    | receive =>
      by_cases hlt : q.used < q.max
      · simp [grantCount, applyOp, Receive, hlt]
        ring
      · simp [grantCount, applyOp, Receive, hlt]
    | release =>
      simp [grantCount, applyOp, Release]
      ring
    | inc =>
      simp [grantCount, applyOp, Inc]
    | backoff =>
      simp [grantCount, applyOp, Backoff]

/-- C3: replaying any trace of quota calls from `used = 0` in which every
prefix has at least as many grants as `Release` calls (each `Release`
paired with a prior successful `Receive`), `used` always equals
grants − releases — the number of outstanding slots — and is never
negative; when the full trace has as many releases as grants, `used`
ends at 0 again. -/
theorem used_matches_outstanding (p : ℚ) (ops : List QuotaOp) (q : Quota)
    (hq : q.used = 0)
    (hpair : ∀ i ≤ ops.length,
      (releaseCount (ops.take i) : ℤ) ≤ (grantCount p (ops.take i) q : ℤ)) :
    (∀ i, (runOps p (ops.take i) q).used
        = (grantCount p (ops.take i) q : ℤ) - (releaseCount (ops.take i) : ℤ) ∧
      0 ≤ (runOps p (ops.take i) q).used) ∧
    (releaseCount ops = grantCount p ops q → (runOps p ops q).used = 0) := by
  have key : ∀ i,
      (releaseCount (ops.take i) : ℤ) ≤ (grantCount p (ops.take i) q : ℤ) := by
    intro i
    rcases le_or_lt i ops.length with h | h
    · exact hpair i h
    · have hfull := hpair ops.length le_rfl
      rw [List.take_length] at hfull
      rw [List.take_of_length_le (le_of_lt h)]
      exact hfull
  constructor
  · intro i
    have hacc := runOps_used p (ops.take i) q
    rw [hq, zero_add] at hacc
    exact ⟨hacc, by rw [hacc]; exact sub_nonneg.mpr (key i)⟩
  · intro he
    have hacc := runOps_used p ops q
    rw [hq, zero_add, he] at hacc
    simp [hacc]

/-- Witness for `used_matches_outstanding`: the trace
`[Receive, Receive, Release, Inc, Release]` from `used = 0, max = 2`
grants twice, releases twice and ends with `used = 0`. -/
theorem used_matches_outstanding_witness :
    (NewQuota 2).used = 0 ∧
    ((runOps 1 ([QuotaOp.receive, QuotaOp.receive, QuotaOp.release, QuotaOp.inc,
        QuotaOp.release].take 5) (NewQuota 2)).used
      = (grantCount 1 ([QuotaOp.receive, QuotaOp.receive, QuotaOp.release, QuotaOp.inc,
          QuotaOp.release].take 5) (NewQuota 2) : ℤ)
        - (releaseCount ([QuotaOp.receive, QuotaOp.receive, QuotaOp.release, QuotaOp.inc,
            QuotaOp.release].take 5) : ℤ)) ∧
    (runOps 1 [QuotaOp.receive, QuotaOp.receive, QuotaOp.release, QuotaOp.inc,
      QuotaOp.release] (NewQuota 2)).used = 0 := by
  have h := used_matches_outstanding 1
    [QuotaOp.receive, QuotaOp.receive, QuotaOp.release, QuotaOp.inc, QuotaOp.release]
    (NewQuota 2) (by decide) (by decide)
  exact ⟨by decide, (h.1 5).1, h.2 (by decide)⟩

/-! ### The additive-increase throttle (`incLimiter`) -/

/-- Modelled from the spec: the `golang.org/x/time/rate` limiter behind
`incLimiter` is not part of this repository; per the spec it is "a
token-bucket gate with rate = 1/interval and burst = 1, consulted before
each `Raise` attempt", with the proxy's one-second interval.  `tokens`
is the current bucket fill, `last` the time of the previous
consultation, both in seconds. -/
structure Limiter where
  tokens : ℚ
  last : ℚ
deriving Repr, DecidableEq

/-- Modelled from the spec: `Allow()` at time `t` refills the bucket at
rate 1 capped at burst 1, then grants and consumes a token when a full
token is available, else denies. -/
def Limiter.allow (l : Limiter) (t : ℚ) : Bool × Limiter :=
  let tk := min 1 (l.tokens + (t - l.last))
  if 1 ≤ tk then (true, { tokens := tk - 1, last := t })
  else (false, { tokens := tk, last := t })

/-- Replay a burst of HTTP 200 responses through the adaptive branch of
`proxy.ModifyResponse`, one per timestamp: each success consults
`incLimiter.Allow()` and calls `Inc` exactly when a token is granted.
Returns the final limiter, the final quota, and how many `Inc` calls
were made. -/
def runSuccesses (l : Limiter) (q : Quota) : List ℚ → Limiter × Quota × ℕ
  | [] => (l, q, 0)
  | t :: ts =>
    let r := l.allow t
    let rest := runSuccesses r.2 (if r.1 then Inc q else q) ts
    (rest.1, rest.2.1, (if r.1 then 1 else 0) + rest.2.2)

/-- While the bucket cannot refill to a full token before the window end
`W`, no success in the window triggers an `Inc`. -/
theorem runSuccesses_no_inc (W : ℚ) (ts : List ℚ) :
    ∀ (l : Limiter) (q : Quota), (∀ u ∈ ts, u < W) → l.tokens + (W - l.last) ≤ 1 →
      (runSuccesses l q ts).2 = (q, 0) := by
  induction ts with
  | nil => intro l q _ _; rfl
  | cons u rest ih =>
    intro l q hu hI
    have huW : u < W := hu u (by simp)
    have htk : min 1 (l.tokens + (u - l.last)) < 1 :=
      lt_of_le_of_lt (min_le_right _ _) (by linarith)
    have hallow : l.allow u
        = (false, { tokens := min 1 (l.tokens + (u - l.last)), last := u }) := by
      simp [Limiter.allow, not_le.mpr htk]
    have hrec : runSuccesses l q (u :: rest)
        = ((runSuccesses (l.allow u).2 (if (l.allow u).1 then Inc q else q) rest).1,
           (runSuccesses (l.allow u).2 (if (l.allow u).1 then Inc q else q) rest).2.1,
           (if (l.allow u).1 then 1 else 0)
             + (runSuccesses (l.allow u).2
                 (if (l.allow u).1 then Inc q else q) rest).2.2) := rfl
    rw [hrec, hallow]
    have hnext : (Limiter.mk (min 1 (l.tokens + (u - l.last))) u).tokens
        + (W - (Limiter.mk (min 1 (l.tokens + (u - l.last))) u).last) ≤ 1 := by
      have : min 1 (l.tokens + (u - l.last)) ≤ l.tokens + (u - l.last) :=
        min_le_right _ _
      simp only
      linarith
    have := ih { tokens := min 1 (l.tokens + (u - l.last)), last := u } q
      (fun v hv => hu v (by simp [hv])) hnext
    simp [this]

/-- C6: in adaptive mode, a burst of `M ≥ 1` successes whose timestamps
all fall inside one throttling window `[t0, t0 + 1)` of the
rate-1-burst-1 token bucket (full at the window start `t0`) triggers
`Inc` exactly once, raising the ceiling by exactly one step, not `M`. -/
theorem burst_incs_once (t0 t : ℚ) (ts : List ℚ) (q : Quota)
    (ht : t0 ≤ t) (hw : ∀ u ∈ t :: ts, u < t0 + 1) :
    (runSuccesses { tokens := 1, last := t0 } q (t :: ts)).2.2 = 1 ∧
    (runSuccesses { tokens := 1, last := t0 } q (t :: ts)).2.1.max = q.max + 1 := by
  have h1 : (1 : ℚ) ≤ min 1 (1 + (t - t0)) := le_min le_rfl (by linarith)
  have hallow : Limiter.allow { tokens := 1, last := t0 } t
      = (true, { tokens := min 1 (1 + (t - t0)) - 1, last := t }) := by
    simp only [Limiter.allow, if_pos h1]
  have hrec : runSuccesses { tokens := 1, last := t0 } q (t :: ts)
      = ((runSuccesses (Limiter.allow { tokens := 1, last := t0 } t).2
            (if (Limiter.allow { tokens := 1, last := t0 } t).1 then Inc q else q) ts).1,
         (runSuccesses (Limiter.allow { tokens := 1, last := t0 } t).2
            (if (Limiter.allow { tokens := 1, last := t0 } t).1 then Inc q else q) ts).2.1,
         (if (Limiter.allow { tokens := 1, last := t0 } t).1 then 1 else 0)
           + (runSuccesses (Limiter.allow { tokens := 1, last := t0 } t).2
               (if (Limiter.allow { tokens := 1, last := t0 } t).1
                then Inc q else q) ts).2.2) := rfl
  have hrest : (runSuccesses { tokens := min 1 (1 + (t - t0)) - 1, last := t }
      (Inc q) ts).2 = (Inc q, 0) := by
    refine runSuccesses_no_inc (t0 + 1) ts _ (Inc q)
      (fun v hv => hw v (by simp [hv])) ?_
    have : min 1 (1 + (t - t0)) ≤ 1 := min_le_left _ _
    simp only
    linarith
  rw [hrec, hallow]
  simp only [if_pos]
  constructor
  · have : (runSuccesses { tokens := min 1 (1 + (t - t0)) - 1, last := t }
        (Inc q) ts).2.2 = 0 := by rw [hrest]
    simp [this]
  · have h2 : (runSuccesses { tokens := min 1 (1 + (t - t0)) - 1, last := t }
        (Inc q) ts).2.1.max = (Inc q).max := by rw [hrest]
    simpa [Inc] using h2

/-- Witness for `burst_incs_once`: three successes at times
`0, 1/2, 3/4` inside the window `[0, 1)` raise a ceiling of 5 to 6 with
a single `Inc`. -/
theorem burst_incs_once_witness :
    (0 : ℚ) ≤ 0 ∧
    ((runSuccesses { tokens := 1, last := 0 } (NewQuota 5)
        [0, 1/2, 3/4]).2.2 = 1 ∧
      (runSuccesses { tokens := 1, last := 0 } (NewQuota 5)
        [0, 1/2, 3/4]).2.1.max = (NewQuota 5).max + 1) := by
  refine ⟨le_rfl, burst_incs_once 0 0 [1/2, 3/4] (NewQuota 5) le_rfl ?_⟩
  intro u hu
  fin_cases hu <;> norm_num

/-! ### The origin worker pool

The origin server keeps a `jobs` channel of capacity `C` (`-queue`,
default 0) drained by `N` workers; its HTTP handler submits with
`select { case jobs <- j: <-j.result; 200; default: 429 }`. -/

/-- The origin's job channel as seen by its HTTP handler: `cap` is the
channel capacity `C`, `queued` the jobs currently buffered, `waiting`
the workers currently blocked receiving on the channel. -/
structure Pool where
  cap : ℕ
  queued : ℕ
  waiting : ℕ
deriving Repr, DecidableEq

/-- The non-blocking submit in the origin's HTTP handler.  Go channel
semantics for the `select` send: it succeeds by direct handoff when a
receiver is blocked on the channel, else by buffering when the buffer
has room, and otherwise the `default` branch answers 429 immediately;
on a successful send the handler waits on `j.result` and answers 200. -/
def submit (p : Pool) : Pool × ℕ :=
  if 0 < p.waiting then ({ p with waiting := p.waiting - 1 }, statusOK)
  else if p.queued < p.cap then ({ p with queued := p.queued + 1 }, statusOK)
  else (p, statusTooManyRequests)

/-- C8 fails as stated: with the default `-queue 0` (unbuffered channel)
and one worker blocked receiving, the queue "already holds C = 0 jobs",
yet the non-blocking send succeeds by direct handoff and the request is
answered 200, not the claimed 429. -/
theorem submit_claim_counterexample :
    (Pool.mk 0 0 1).queued = (Pool.mk 0 0 1).cap ∧
    (submit (Pool.mk 0 0 1)).2 = statusOK ∧
    (submit (Pool.mk 0 0 1)).2 ≠ statusTooManyRequests := by
  refine ⟨rfl, rfl, ?_⟩
  decide

/-- C8 amended: the accept/reject decision is non-blocking and only the
statuses 200 and 429 are possible; when the queue already holds `C` jobs
and no worker is blocked waiting to receive (for `C ≥ 1` a full buffer
already rules out a blocked receiver, since a worker blocks only on an
empty buffer) the request is answered 429 and the job is not enqueued;
and whenever the queue is not full or an idle worker is ready for a
direct handoff, the job is accepted and answered 200 on completion. -/
theorem submit_spec_amended (p : Pool) (hcap : p.queued ≤ p.cap) :
    ((submit p).2 = statusOK ∨ (submit p).2 = statusTooManyRequests) ∧
    ((p.queued = p.cap ∧ p.waiting = 0) → submit p = (p, statusTooManyRequests)) ∧
    ((p.queued ≠ p.cap ∨ 0 < p.waiting) → (submit p).2 = statusOK) := by
  by_cases hw : 0 < p.waiting
  · have hs : (submit p).2 = statusOK := by simp [submit, hw]
    exact ⟨Or.inl hs, fun h2 => absurd h2.2 (by omega), fun _ => hs⟩
  · by_cases hlt : p.queued < p.cap
    · have hs : (submit p).2 = statusOK := by simp [submit, hw, hlt]
      exact ⟨Or.inl hs, fun h2 => absurd h2.1 (by omega), fun _ => hs⟩
    · have heq : p.queued = p.cap := by omega
      have hs : submit p = (p, statusTooManyRequests) := by simp [submit, hw, hlt]
      refine ⟨Or.inr (by rw [hs]), fun _ => hs, fun h3 => ?_⟩
      rcases h3 with h3 | h3
      · exact absurd heq h3
      · exact absurd h3 hw

/-- Witness for `submit_spec_amended` at the default `-queue 0`
configuration with every worker busy (`C = 0`, nothing buffered, no
worker blocked receiving): the queue holds `C` jobs, no receiver waits,
and the request is rejected with 429. -/
theorem submit_spec_amended_witness :
    (Pool.mk 0 0 0).queued ≤ (Pool.mk 0 0 0).cap ∧
    (((submit (Pool.mk 0 0 0)).2 = statusOK ∨
        (submit (Pool.mk 0 0 0)).2 = statusTooManyRequests) ∧
      (((Pool.mk 0 0 0).queued = (Pool.mk 0 0 0).cap ∧
          (Pool.mk 0 0 0).waiting = 0) →
        submit (Pool.mk 0 0 0) = (Pool.mk 0 0 0, statusTooManyRequests))) := by
  have h := submit_spec_amended (Pool.mk 0 0 0) (by decide)
  exact ⟨by decide, h.1, h.2.1⟩

/-! ### Concurrent `Receive` races

`Quota.Receive` is two atomic actions with a window between them: the
load-and-check of `used` against `max`, and the `atomic.AddInt64` that
commits the grant.  A race of `n` callers against a ceiling pinned at
`K` is an arbitrary interleaving of these per-caller actions. -/

/-- Progress of one caller through its single `Receive` call: not yet at
the load-and-check; past the check with the increment still to run; or
finished granted or denied. -/
inductive TStatus where
  | notStarted : TStatus
  | pending : TStatus
  | doneGranted : TStatus
  | doneDenied : TStatus
deriving Repr, DecidableEq

/-- Global state of a race of `n` callers: the shared `used` counter and
each caller's progress.  The ceiling is pinned, so it is a parameter of
the step function rather than state. -/
structure RaceState (n : ℕ) where
  used : ℤ
  status : Fin n → TStatus

/-- Let caller `t` run its next atomic action: the load-and-check
(`used < K` decides grant or denial; a denial completes the call with no
write), or the committed increment of a granted check. -/
def raceStep (n K : ℕ) (s : RaceState n) (t : Fin n) : RaceState n :=
  if s.status t = TStatus.notStarted then
    if s.used < (K : ℤ) then { s with status := Function.update s.status t TStatus.pending }
    else { s with status := Function.update s.status t TStatus.doneDenied }
  else if s.status t = TStatus.pending then
    { used := s.used + 1, status := Function.update s.status t TStatus.doneGranted }
  else s

/-- Run an interleaving schedule left to right. -/
def raceRun (n K : ℕ) : List (Fin n) → RaceState n → RaceState n
  | [], s => s
  | t :: rest, s => raceRun n K rest (raceStep n K s t)

/-- How many callers are currently at status `v`. -/
def statusCount (s : RaceState n) (v : TStatus) : ℕ :=
  (Finset.univ.filter (fun i => s.status i = v)).card

/-- The largest number of callers simultaneously inside `Receive`
observed at any load-and-check of the schedule: the reader plus every
caller sitting in the check-to-increment window at that instant. -/
def maxRace (n K : ℕ) : List (Fin n) → RaceState n → ℕ
  | [], _ => 0
  | t :: rest, s =>
    if s.status t = TStatus.notStarted then
      max (statusCount s TStatus.pending + 1) (maxRace n K rest (raceStep n K s t))
    else maxRace n K rest (raceStep n K s t)

/-- All callers poised to call `Receive` against a fresh counter. -/
def raceInit (n : ℕ) : RaceState n :=
  { used := 0, status := fun _ => TStatus.notStarted }

/-- Bookkeeping for a point update of one caller's status. -/
theorem count_update (f : Fin n → TStatus) (t : Fin n) (v w : TStatus) :
    (Finset.univ.filter (fun i => Function.update f t v i = w)).card
        + (if f t = w then 1 else 0)
      = (Finset.univ.filter (fun i => f i = w)).card + (if v = w then 1 else 0) := by
  classical
  rw [Finset.card_filter, Finset.card_filter]
  have hupd : (fun i => if Function.update f t v i = w then (1 : ℕ) else 0)
      = Function.update (fun i => if f i = w then (1 : ℕ) else 0) t
          (if v = w then 1 else 0) := by
    funext i
    by_cases hi : i = t
    · subst hi
      simp
    · simp [Function.update_noteq hi]
  rw [hupd, Finset.sum_update_of_mem (Finset.mem_univ t),
    Finset.sum_eq_sum_diff_singleton_add (Finset.mem_univ t)
      (fun i => if f i = w then (1 : ℕ) else 0)]
  ring

/-- A caller with status `v` contributes to the count of `v`. -/
theorem one_le_statusCount (s : RaceState n) (t : Fin n) (v : TStatus)
    (h : s.status t = v) : 1 ≤ statusCount s v := by
  classical
  refine Finset.card_pos.mpr ⟨t, ?_⟩
  simp [Finset.mem_filter, h]

/-- `statusCount` after a point update of one caller's status; the
count is independent of the accompanying `used` value `u`. -/
theorem statusCount_set (u : ℤ) (s : RaceState n) (t : Fin n) (v w : TStatus) :
    statusCount (RaceState.mk u (Function.update s.status t v)) w
        + (if s.status t = w then 1 else 0)
      = statusCount s w + (if v = w then 1 else 0) := by
  simpa [statusCount] using count_update s.status t v w

/-- One race step keeps `used` equal to the number of committed grants. -/
theorem raceStep_used (n K : ℕ) (s : RaceState n) (t : Fin n)
    (h : s.used = (statusCount s TStatus.doneGranted : ℤ)) :
    (raceStep n K s t).used
      = (statusCount (raceStep n K s t) TStatus.doneGranted : ℤ) := by
  by_cases h0 : s.status t = TStatus.notStarted
  · by_cases hlt : s.used < (K : ℤ)
    · have hstepEq : raceStep n K s t
          = { s with status := Function.update s.status t TStatus.pending } := by
        simp [raceStep, h0, hlt]
      have hset := statusCount_set s.used s t TStatus.pending TStatus.doneGranted
      rw [h0] at hset
      simp at hset
      rw [hstepEq]
      simpa [hset] using h
    · have hstepEq : raceStep n K s t
          = { s with status := Function.update s.status t TStatus.doneDenied } := by
        simp [raceStep, h0, hlt]
      have hset := statusCount_set s.used s t TStatus.doneDenied TStatus.doneGranted
      rw [h0] at hset
      simp at hset
      rw [hstepEq]
      simpa [hset] using h
  · by_cases h1 : s.status t = TStatus.pending
    · have hstepEq : raceStep n K s t
          = { used := s.used + 1
              status := Function.update s.status t TStatus.doneGranted } := by
        simp [raceStep, h0, h1]
      have hset := statusCount_set (s.used + 1) s t TStatus.doneGranted
        TStatus.doneGranted
      rw [h1] at hset
      simp at hset
      rw [hstepEq]
      simp only [hset]
      rw [h]
      push_cast
      ring
    · simp [raceStep, h0, h1, h]

/-- `used` equals the number of committed grants throughout a race. -/
theorem race_used (n K : ℕ) (sch : List (Fin n)) :
    ∀ s : RaceState n, s.used = (statusCount s TStatus.doneGranted : ℤ) →
      (raceRun n K sch s).used
        = (statusCount (raceRun n K sch s) TStatus.doneGranted : ℤ) := by
  induction sch with
  | nil => intro s h; simpa [raceRun] using h
  | cons t rest ih =>
    intro s h
    have : raceRun n K (t :: rest) s = raceRun n K rest (raceStep n K s t) := rfl
    rw [this]
    exact ih (raceStep n K s t) (raceStep_used n K s t h)

/-- Race invariant: committed grants plus callers inside the
check-to-increment window never exceed the larger of their initial total
and `K + maxRace - 1`. -/
theorem race_bound (n K : ℕ) (sch : List (Fin n)) :
    ∀ s : RaceState n, s.used = (statusCount s TStatus.doneGranted : ℤ) →
      statusCount (raceRun n K sch s) TStatus.doneGranted
          + statusCount (raceRun n K sch s) TStatus.pending + 1
        ≤ max (statusCount s TStatus.doneGranted + statusCount s TStatus.pending + 1)
            (K + maxRace n K sch s) := by
  induction sch with
  | nil =>
    intro s _
    simp [raceRun, maxRace]
  | cons t rest ih =>
    intro s hused
    have hrun : raceRun n K (t :: rest) s = raceRun n K rest (raceStep n K s t) := rfl
    have hstep := raceStep_used n K s t hused
    have hIH := ih (raceStep n K s t) hstep
    by_cases h0 : s.status t = TStatus.notStarted
    · have hmax : maxRace n K (t :: rest) s
          = max (statusCount s TStatus.pending + 1)
              (maxRace n K rest (raceStep n K s t)) := by
        simp [maxRace, h0]
      by_cases hlt : s.used < (K : ℤ)
      · have hstepEq : raceStep n K s t
            = { s with status := Function.update s.status t TStatus.pending } := by
          simp [raceStep, h0, hlt]
        have hG := statusCount_set s.used s t TStatus.pending TStatus.doneGranted
        rw [h0] at hG
        simp at hG
        rw [← hstepEq] at hG
        have hP := statusCount_set s.used s t TStatus.pending TStatus.pending
        rw [h0] at hP
        simp at hP
        rw [← hstepEq] at hP
        have hGK : statusCount s TStatus.doneGranted < K := by
          rw [hused] at hlt
          exact_mod_cast hlt
        have h2 : statusCount s TStatus.pending + 1
            ≤ max (statusCount s TStatus.pending + 1)
                (maxRace n K rest (raceStep n K s t)) := le_max_left _ _
        have h3 : maxRace n K rest (raceStep n K s t)
            ≤ max (statusCount s TStatus.pending + 1)
                (maxRace n K rest (raceStep n K s t)) := le_max_right _ _
        have hY : max (statusCount (raceStep n K s t) TStatus.doneGranted
              + statusCount (raceStep n K s t) TStatus.pending + 1)
              (K + maxRace n K rest (raceStep n K s t))
            ≤ K + max (statusCount s TStatus.pending + 1)
                (maxRace n K rest (raceStep n K s t)) := by
          apply max_le
          · omega
          · omega
        rw [hrun, hmax]
        exact le_trans (le_trans hIH hY) (le_max_right _ _)
      · have hstepEq : raceStep n K s t
            = { s with status := Function.update s.status t TStatus.doneDenied } := by
          simp [raceStep, h0, hlt]
        have hG := statusCount_set s.used s t TStatus.doneDenied TStatus.doneGranted
        rw [h0] at hG
        simp at hG
        rw [← hstepEq] at hG
        have hP := statusCount_set s.used s t TStatus.doneDenied TStatus.pending
        rw [h0] at hP
        simp at hP
        rw [← hstepEq] at hP
        have h3 : maxRace n K rest (raceStep n K s t)
            ≤ max (statusCount s TStatus.pending + 1)
                (maxRace n K rest (raceStep n K s t)) := le_max_right _ _
        have hY : max (statusCount (raceStep n K s t) TStatus.doneGranted
              + statusCount (raceStep n K s t) TStatus.pending + 1)
              (K + maxRace n K rest (raceStep n K s t))
            ≤ max (statusCount s TStatus.doneGranted
                + statusCount s TStatus.pending + 1)
              (K + max (statusCount s TStatus.pending + 1)
                (maxRace n K rest (raceStep n K s t))) := by
          apply max_le
          · exact le_trans (by omega) (le_max_left _ _)
          · exact le_trans (by omega) (le_max_right _ _)
        rw [hrun, hmax]
        exact le_trans hIH hY
    · by_cases h1 : s.status t = TStatus.pending
      · have hstepEq : raceStep n K s t
            = { used := s.used + 1
                status := Function.update s.status t TStatus.doneGranted } := by
          simp [raceStep, h0, h1]
        have hmax : maxRace n K (t :: rest) s
            = maxRace n K rest (raceStep n K s t) := by
          simp [maxRace, h0]
        have hG := statusCount_set (s.used + 1) s t TStatus.doneGranted
          TStatus.doneGranted
        rw [h1] at hG
        simp at hG
        have hG2 : statusCount (raceStep n K s t) TStatus.doneGranted
            = statusCount s TStatus.doneGranted + 1 := by
          rw [hstepEq]
          exact hG
        have hP := statusCount_set (s.used + 1) s t TStatus.doneGranted TStatus.pending
        rw [h1] at hP
        simp at hP
        have hP2 : statusCount (raceStep n K s t) TStatus.pending + 1
            = statusCount s TStatus.pending := by
          rw [hstepEq]
          exact hP
        have heq : statusCount (raceStep n K s t) TStatus.doneGranted
              + statusCount (raceStep n K s t) TStatus.pending + 1
            = statusCount s TStatus.doneGranted + statusCount s TStatus.pending + 1 := by
          omega
        rw [heq] at hIH
        rw [hrun, hmax]
        exact hIH
      · have hstepEq : raceStep n K s t = s := by
          simp [raceStep, h0, h1]
        have hmax : maxRace n K (t :: rest) s
            = maxRace n K rest (raceStep n K s t) := by
          simp [maxRace, h0]
        rw [hstepEq] at hIH
        rw [hrun, hstepEq, hmax, hstepEq]
        exact hIH

/-- In the initial race state no caller is past `notStarted`. -/
theorem statusCount_init (n : ℕ) (v : TStatus) (h : v ≠ TStatus.notStarted) :
    statusCount (raceInit n) v = 0 := by
  classical
  have hall : ∀ i ∈ (Finset.univ : Finset (Fin n)), ¬ ((raceInit n).status i = v) :=
    fun i _ hh => h hh.symm
  simp [statusCount, Finset.filter_eq_empty_iff.mpr hall]

/-- C9: for every interleaving of `n` concurrent `Receive` callers
racing against a ceiling pinned at `K` from a fresh counter, the number
of granted calls is at most `K` plus (the maximum number of callers
simultaneously inside `Receive` at any load-and-check, minus one), and
the shared `used` counter always equals the number of committed grants —
so `used` overshoots the pinned ceiling by at most that bounded amount. -/
theorem grants_bounded (n K : ℕ) (sch : List (Fin n)) :
    statusCount (raceRun n K sch (raceInit n)) TStatus.doneGranted
        ≤ K + maxRace n K sch (raceInit n) - 1 ∧
    (raceRun n K sch (raceInit n)).used
      = (statusCount (raceRun n K sch (raceInit n)) TStatus.doneGranted : ℤ) := by
  have hinit : (raceInit n).used
      = (statusCount (raceInit n) TStatus.doneGranted : ℤ) := by
    rw [statusCount_init n TStatus.doneGranted (by decide)]
    simp [raceInit]
  constructor
  · have h := race_bound n K sch (raceInit n) hinit
    rw [statusCount_init n TStatus.doneGranted (by decide),
      statusCount_init n TStatus.pending (by decide)] at h
    norm_num at h
    omega
  · exact race_used n K sch (raceInit n) hinit

end Capacity
